import Mathlib

/-!
Verification of the STATS237 quantlib Monte-Carlo core against its
natural-language specification.

The development shallowly embeds the Python sources
(`stats237_quantlib/mc/{samplers,variance_reduction}.py`,
`stats237_course_v1_3_0/.../mc/{asian,basket}.py`,
`stats237_course_v0_9_0/.../mc/core.py`) into Lean:

* float64 arithmetic is idealized as exact arithmetic over `ℚ`;
* the external numeric kernels (libm `exp`/`log`/`sqrt`, SciPy's normal
  quantile/cdf, numpy's LAPACK-backed Cholesky factorization) are modeled as
  abstract functions collected in a `RealFuns` record — theorems that need a
  property of such a kernel (e.g. monotonicity of `sqrt`) take it as an
  explicit hypothesis;
* numpy's pseudo-random generator is modeled by an abstract deterministic
  family of draws indexed by (seed, draw counter), collected in a `PRNG`
  record; the state of a caller-supplied generator is an explicit
  `RngState` argument threaded into every call ("ambient state"), used only
  when the configuration carries a caller generator;
* `np.linalg.solve` is embedded with its exact-arithmetic semantics: the
  unique solution when the matrix is invertible (`det ≠ 0`), and the
  `LinAlgError → beta = 0` fallback of the source otherwise;
* fallible Python code (`raise ValueError`) returns `Except VRError`,
  with the error taxonomy of spec §7.
-/

/-- Error taxonomy of spec §7.  The Python source raises `ValueError` (and
`numpy.linalg.LinAlgError` for a failed Cholesky factorization); the spec
names the cases as below. -/
inductive VRError where
  | InvalidInput
  | DimensionMismatch
  | InsufficientSamples
  | UnknownMethod
  | DecompositionFailure
  deriving DecidableEq, Repr

/-- Abstract numeric kernels used by the Python code (libm, SciPy, LAPACK),
modeled as exact functions on `ℚ`.  `cholFac d A` models
`np.linalg.cholesky(A)`: `none` models the `LinAlgError` raised when the
matrix is not positive definite. -/
structure RealFuns where
  exp : ℚ → ℚ
  log : ℚ → ℚ
  sqrt : ℚ → ℚ
  ppf : ℚ → ℚ
  cdf : ℚ → ℚ
  cholFac : (d : ℕ) → Matrix (Fin d) (Fin d) ℚ → Option (Matrix (Fin d) (Fin d) ℚ)

/-- State of a numpy `Generator`: the seed it was constructed with and the
number of elementary draws already consumed. -/
structure RngState where
  seed : ℕ
  counter : ℕ
  deriving DecidableEq, Repr

/-- Abstract deterministic pseudo-random sources: numpy's generator draws and
SciPy's QMC engines, all deterministic functions of the seed — this is the
modeling of "identical seed reproduces identical draws".
`normal s i` / `uniform s i` is the `i`-th standard-normal / uniform-[0,1)
value of the generator seeded with `s`; `shuffle s i n` is the permutation
applied by `rng.shuffle` on an `n`-vector at draw counter `i`;
`sobolPoint scramble seed row col` (resp. `haltonPoint`) is an entry of the
Sobol (resp. Halton) point set. -/
structure PRNG where
  normal : ℕ → ℕ → ℚ
  uniform : ℕ → ℕ → ℚ
  shuffle : ℕ → ℕ → (n : ℕ) → Equiv.Perm (Fin n)
  sobolPoint : Bool → ℕ → ℕ → ℕ → ℚ
  haltonPoint : Bool → ℕ → ℕ → ℕ → ℚ

/-! ### Basic sample statistics (numpy `mean` / `std(ddof=1)`) -/

/-- `np.mean` of a vector. -/
def vecMean {n : ℕ} (x : Fin n → ℚ) : ℚ := (∑ i, x i) / n

/-- Sample variance with `ddof=1` (the square of `np.std(x, ddof=1)`). -/
def sampleVar {n : ℕ} (x : Fin n → ℚ) : ℚ :=
  (∑ i, (x i - vecMean x) ^ 2) / ((n : ℚ) - 1)

/-- `np.mean` of a list. -/
def listMean (xs : List ℚ) : ℚ := xs.sum / xs.length

/-- Sample variance (`ddof=1`) of a list. -/
def listVar (xs : List ℚ) : ℚ :=
  ((xs.map fun v => (v - listMean xs) ^ 2).sum) / ((xs.length : ℚ) - 1)

/-! ### Control-variate estimator
(`stats237_quantlib/mc/variance_reduction.py`, `control_variate_adjust_multi`) -/

/-- `ControlVariateResult` dataclass of the source.
`variance_reduction_factor` is `baseline_sd / adjusted_sd`, with `none`
modeling the `float("inf")` returned when `adjusted_sd == 0`. -/
structure CVResult (n k : ℕ) where
  beta : Fin k → ℚ
  adjusted_samples : Fin n → ℚ
  baseline_sd : ℚ
  adjusted_sd : ℚ
  variance_reduction_factor : Option ℚ

/-- Column mean of the controls matrix (`np.mean(Y, axis=0)`). -/
def colMean {n k : ℕ} (Y : Matrix (Fin n) (Fin k) ℚ) (j : Fin k) : ℚ :=
  (∑ i, Y i j) / n

/-- Centered target (`x - mean(x)`). -/
def centerVec {n : ℕ} (x : Fin n → ℚ) : Fin n → ℚ :=
  fun i => x i - vecMean x

/-- Centered controls (`Y - mean(Y, axis=0)`). -/
def centerCols {n k : ℕ} (Y : Matrix (Fin n) (Fin k) ℚ) : Matrix (Fin n) (Fin k) ℚ :=
  Matrix.of fun i j => Y i j - colMean Y j

/-- `covYY = Yc.T @ Yc / (n - 1)`. -/
def covMatYY {n k : ℕ} (Y : Matrix (Fin n) (Fin k) ℚ) : Matrix (Fin k) (Fin k) ℚ :=
  Matrix.of fun a b => (∑ i, centerCols Y i a * centerCols Y i b) / ((n : ℚ) - 1)

/-- `covYx = Yc.T @ xc / (n - 1)`. -/
def covVecYx {n k : ℕ} (Y : Matrix (Fin n) (Fin k) ℚ) (x : Fin n → ℚ) : Fin k → ℚ :=
  fun a => (∑ i, centerCols Y i a * centerVec x i) / ((n : ℚ) - 1)

/-- The regularized covariance `covYY + ridge * eye(k)`. -/
def ridgedCov {n k : ℕ} (Y : Matrix (Fin n) (Fin k) ℚ) (ridge : ℚ) :
    Matrix (Fin k) (Fin k) ℚ :=
  covMatYY Y + ridge • (1 : Matrix (Fin k) (Fin k) ℚ)

/-- Exact-arithmetic semantics of
`try: beta = np.linalg.solve(covYY, covYx) except LinAlgError: beta = 0`:
the unique solution `A⁻¹ b` when `A` is invertible, and `0` otherwise
(Cramer's rule form, which is computable over `ℚ`). -/
def linSolve {k : ℕ} (A : Matrix (Fin k) (Fin k) ℚ) (b : Fin k → ℚ) : Fin k → ℚ :=
  if A.det = 0 then 0 else A.det⁻¹ • (A.adjugate.mulVec b)

/-- The regression weights `beta` computed by `control_variate_adjust_multi`. -/
def cvBeta {n k : ℕ} (x : Fin n → ℚ) (Y : Matrix (Fin n) (Fin k) ℚ) (ridge : ℚ) :
    Fin k → ℚ :=
  linSolve (ridgedCov Y ridge) (covVecYx Y x)

/-- The adjusted samples `x + (y_means - Y) @ beta`. -/
def cvAdjusted {n k : ℕ} (x : Fin n → ℚ) (Y : Matrix (Fin n) (Fin k) ℚ)
    (ymeans : Fin k → ℚ) (ridge : ℚ) : Fin n → ℚ :=
  fun i => x i + ∑ j, (ymeans j - Y i j) * cvBeta x Y ridge j

/-- Body of `control_variate_adjust_multi` after its shape validation
(the source's default ridge is `1e-12`, see `defaultRidge`). -/
def cvAdjustCore (F : RealFuns) {n k : ℕ} (x : Fin n → ℚ)
    (Y : Matrix (Fin n) (Fin k) ℚ) (ymeans : Fin k → ℚ) (ridge : ℚ) : CVResult n k :=
  let bsd := F.sqrt (sampleVar x)
  let adj := cvAdjusted x Y ymeans ridge
  let asd := F.sqrt (sampleVar adj)
  { beta := cvBeta x Y ridge
    adjusted_samples := adj
    baseline_sd := bsd
    adjusted_sd := asd
    variance_reduction_factor := if asd = 0 then none else some (bsd / asd) }

/-- The source's default ridge regularization constant `1e-12`. -/
def defaultRidge : ℚ := 1 / 1000000000000

/-- `control_variate_adjust_multi(x, Y, y_means, ridge)` with its shape
validation, on raw (list-shaped) inputs.  The source first checks
`Y.ndim != 2`; the only list-of-rows value whose `np.asarray` image is not
2-dimensional is the empty list (shape `(0,)`), so that check appears here
as `Y = []`.  The remaining checks mirror the source in order: row-count
mismatch, then control-count mismatch, then the minimum sample count. -/
def control_variate_adjust_multi (F : RealFuns) (x : List ℚ) (Y : List (List ℚ))
    (ymeans : List ℚ) (ridge : ℚ) :
    Except VRError (CVResult x.length ymeans.length) :=
  if Y = [] then .error .DimensionMismatch
  else if Y.length ≠ x.length then .error .DimensionMismatch
  else if ymeans.length ≠ (Y.headD []).length then .error .DimensionMismatch
  else if x.length < 2 then .error .InsufficientSamples
  else
    .ok (cvAdjustCore F
      (fun i => x.get i)
      (Matrix.of fun i j => (Y.getD i []).getD j 0)
      (fun j => ymeans.get j) ridge)

/-- Back-compat single-control wrapper `control_variate_adjust(x, y, y_mean)`. -/
def control_variate_adjust (F : RealFuns) (x : List ℚ) (y : List ℚ) (y_mean : ℚ) :
    Except VRError (CVResult x.length 1) :=
  control_variate_adjust_multi F x (y.map fun v => [v]) [y_mean] defaultRidge

/-! ### Samplers (`stats237_quantlib/mc/samplers.py`) -/

/-- `MCNormalConfig` dataclass.  `useCallerRng` models whether the optional
`rng : Optional[np.random.Generator]` field is set; the state of that caller
generator is the explicit ambient `RngState` argument of `standard_normals`. -/
structure MCNormalConfig where
  method : String
  antithetic : Bool
  seed : ℕ
  qmc_scramble : Bool
  useCallerRng : Bool

/-- The generator used by a call:
`cfg.rng if cfg.rng is not None else np.random.default_rng(cfg.seed)`. -/
def rngOf (cfg : MCNormalConfig) (amb : RngState) : RngState :=
  if cfg.useCallerRng then amb else ⟨cfg.seed, 0⟩

/-- `n_base = (n + 1) // 2 if cfg.antithetic else n`. -/
def nBase (n : ℕ) : Bool → ℕ
  | true => (n + 1) / 2
  | false => n

/-- Number of rows of the returned matrix: `2 * n_base` after the antithetic
`vstack`, `n` otherwise. -/
def effCount (n : ℕ) : Bool → ℕ
  | true => 2 * ((n + 1) / 2)
  | false => n

/-- `np.vstack([A, B])` for two blocks with the same row count. -/
def vstack2 {m d : ℕ} (A B : Matrix (Fin m) (Fin d) ℚ) :
    Matrix (Fin (2 * m)) (Fin d) ℚ :=
  Matrix.of fun i j =>
    if h : (i : ℕ) < m then A ⟨i, h⟩ j else B ⟨(i : ℕ) - m, by omega⟩ j

/-- Draw the base block by `B`, then `vstack` the antithetic image of each
entry under `neg` (negation for normal draws, complement-to-one for
uniforms) when antithetic pairing is on. -/
def stackAnti {d : ℕ} (n : ℕ) (neg : ℚ → ℚ)
    (B : (m : ℕ) → Matrix (Fin m) (Fin d) ℚ) :
    (anti : Bool) → Matrix (Fin (effCount n anti)) (Fin d) ℚ
  | true => vstack2 (B ((n + 1) / 2)) (Matrix.of fun i j => neg (B ((n + 1) / 2) i j))
  | false => B n

/-- `_clip_u`: `np.clip(u, eps, 1 - eps)` with `eps = 1e-12`. -/
def clipU (u : ℚ) : ℚ :=
  max (1 / 1000000000000) (min (1 - 1 / 1000000000000) u)

/-- Row-major block of fresh standard-normal draws
(`rng.standard_normal((m, d))`). -/
def normalBlock (P : PRNG) (st : RngState) (m d : ℕ) : Matrix (Fin m) (Fin d) ℚ :=
  Matrix.of fun i j => P.normal st.seed (st.counter + (i : ℕ) * d + (j : ℕ))

/-- Body of `_lhs_uniforms`: for each dimension `j` independently, one uniform
per stratum `[i/m, (i+1)/m)` (`(strata + rng.random(m)) / m`), then
`rng.shuffle` permutes the column.  Each column consumes `m` uniform draws
and one shuffle; the entry at row `i` of column `j` is the stratified
uniform of stratum `σ_j i`, where `σ_j` is the column's shuffle
permutation. -/
def lhsUniformsCore (P : PRNG) (st : RngState) (m d : ℕ) :
    Matrix (Fin m) (Fin d) ℚ :=
  Matrix.of fun i j =>
    let σ := P.shuffle st.seed (st.counter + 2 * m * (j : ℕ) + m) m
    (((σ i : ℕ) : ℚ) + P.uniform st.seed (st.counter + 2 * m * (j : ℕ) + (σ i : ℕ))) / m

/-- `_lhs_uniforms(n, d, rng)` with its `n > 0` / `d > 0` validation. -/
def lhs_uniforms (P : PRNG) (st : RngState) (m d : ℕ) :
    Except VRError (Matrix (Fin m) (Fin d) ℚ) :=
  if m = 0 then .error .InvalidInput
  else if d = 0 then .error .InvalidInput
  else .ok (lhsUniformsCore P st m d)

/-- `_qmc_uniforms(n, d, method, scramble, seed)` point block; the engines are
seeded directly from `cfg.seed` and do not touch the generator. -/
def qmcBlock (P : PRNG) (method : String) (scramble : Bool) (seed : ℕ) (m d : ℕ) :
    Matrix (Fin m) (Fin d) ℚ :=
  Matrix.of fun i j =>
    if method = "sobol" then P.sobolPoint scramble seed (i : ℕ) (j : ℕ)
    else P.haltonPoint scramble seed (i : ℕ) (j : ℕ)

/-- The `"plain"` branch of `standard_normals`. -/
def plainNormals (P : PRNG) (n d : ℕ) (cfg : MCNormalConfig) (amb : RngState) :
    Matrix (Fin (effCount n cfg.antithetic)) (Fin d) ℚ :=
  stackAnti n (fun z => -z) (fun m => normalBlock P (rngOf cfg amb) m d) cfg.antithetic

/-- The `"lhs"` branch: stratified uniforms, antithetic complement before
inversion, then `norm.ppf(_clip_u(U))`. -/
def lhsNormals (P : PRNG) (F : RealFuns) (n d : ℕ) (cfg : MCNormalConfig)
    (amb : RngState) : Matrix (Fin (effCount n cfg.antithetic)) (Fin d) ℚ :=
  let U := stackAnti n (fun u => 1 - u)
    (fun m => lhsUniformsCore P (rngOf cfg amb) m d) cfg.antithetic
  Matrix.of fun i j => F.ppf (clipU (U i j))

/-- The `"sobol"` / `"halton"` branch: low-discrepancy uniforms (engine seeded
from `cfg.seed`; the generator is not used), antithetic complement, clip,
then quantile inversion. -/
def qmcNormals (P : PRNG) (F : RealFuns) (n d : ℕ) (cfg : MCNormalConfig) :
    Matrix (Fin (effCount n cfg.antithetic)) (Fin d) ℚ :=
  let U := stackAnti n (fun u => 1 - u)
    (fun m => qmcBlock P cfg.method cfg.qmc_scramble cfg.seed m d) cfg.antithetic
  Matrix.of fun i j => F.ppf (clipU (U i j))

/-- `standard_normals(n, d, cfg)`.  Validation and dispatch mirror the source;
the dead `n_base ≤ 0` re-check inside `_lhs_uniforms` is kept.  The returned
matrix has `effCount n cfg.antithetic` rows. -/
def standard_normals (P : PRNG) (F : RealFuns) (n d : ℕ) (cfg : MCNormalConfig)
    (amb : RngState) :
    Except VRError (Matrix (Fin (effCount n cfg.antithetic)) (Fin d) ℚ) :=
  if n = 0 then .error .InvalidInput
  else if d = 0 then .error .InvalidInput
  else if cfg.method = "plain" then .ok (plainNormals P n d cfg amb)
  else if cfg.method = "lhs" then
    if nBase n cfg.antithetic = 0 then .error .InvalidInput
    else .ok (lhsNormals P F n d cfg amb)
  else if cfg.method = "sobol" ∨ cfg.method = "halton" then
    .ok (qmcNormals P F n d cfg)
  else .error .UnknownMethod

/-- `correlated_normals(n, corr, cfg)`: independent normals right-multiplied by
the transposed Cholesky factor (`Z @ L.T`).  The matrix is square by type;
the factorization failure of `np.linalg.cholesky` propagates. -/
def correlated_normals (P : PRNG) (F : RealFuns) (n : ℕ) {d : ℕ}
    (corr : Matrix (Fin d) (Fin d) ℚ) (cfg : MCNormalConfig) (amb : RngState) :
    Except VRError (Matrix (Fin (effCount n cfg.antithetic)) (Fin d) ℚ) :=
  match standard_normals P F n d cfg amb with
  | .error e => .error e
  | .ok Z =>
    match F.cholFac d corr with
    | none => .error .DecompositionFailure
    | some L => .ok (Matrix.of fun i j => ∑ t, Z i t * L j t)

/-! ### Confidence-interval helper (`stats237_course_v0_9_0/.../mc/core.py`) -/

/-- The statistics dict returned by `mc_mean_ci`. -/
structure EstimateStatistics where
  n : ℕ
  mean : ℚ
  sd : ℚ
  se : ℚ
  alpha : ℚ
  ci_low : ℚ
  ci_high : ℚ
  deriving DecidableEq, Repr

/-- `mc_mean_ci(samples, alpha)`: mean and two-sided normal-approximation
confidence interval, `sd` with `ddof=1`, `se = sd / sqrt(n)`,
`z = norm.ppf(1 - alpha/2)`. -/
def mc_mean_ci (F : RealFuns) (samples : List ℚ) (alpha : ℚ) :
    Except VRError EstimateStatistics :=
  if samples.length < 2 then .error .InsufficientSamples
  else
    let mu := listMean samples
    let sd := F.sqrt (listVar samples)
    let se := sd / F.sqrt ((samples.length : ℚ))
    let z := F.ppf (1 - alpha / 2)
    .ok ⟨samples.length, mu, sd, se, alpha, mu - z * se, mu + z * se⟩

/-! ### Asian pricer (`stats237_course_v1_3_0/.../mc/asian.py`) -/

/-- `np.cumsum` along a row, as a recursion on the monitoring index. -/
def cumsum {m : ℕ} (f : Fin m → ℚ) : Fin m → ℚ
  | ⟨0, h⟩ => f ⟨0, h⟩
  | ⟨j + 1, h⟩ => cumsum f ⟨j, Nat.lt_of_succ_lt h⟩ + f ⟨j + 1, h⟩

/-- One risk-neutral GBM log-increment:
`(r - sigma^2/2) * dt + sigma * sqrt(dt) * Z[i, t]`. -/
def asianIncr (F : RealFuns) (r sigma dt : ℚ) {m n_obs : ℕ}
    (Z : Matrix (Fin m) (Fin n_obs) ℚ) (i : Fin m) (t : Fin n_obs) : ℚ :=
  (r - sigma ^ 2 / 2) * dt + sigma * F.sqrt dt * Z i t

/-- `logS = log(S0) + np.cumsum(increments, axis=1)`. -/
def asianLogS (F : RealFuns) (S0 r sigma dt : ℚ) {m n_obs : ℕ}
    (Z : Matrix (Fin m) (Fin n_obs) ℚ) (i : Fin m) (j : Fin n_obs) : ℚ :=
  F.log S0 + cumsum (asianIncr F r sigma dt Z i) j

/-- Per-path discounted arithmetic-Asian payoff:
`exp(-r T) * max(mean(S over monitoring dates) - K, 0)`. -/
def asianPayoff (F : RealFuns) (S0 K r T sigma dt : ℚ) {m n_obs : ℕ}
    (Z : Matrix (Fin m) (Fin n_obs) ℚ) (i : Fin m) : ℚ :=
  F.exp (-(r * T)) *
    max ((∑ j, F.exp (asianLogS F S0 r sigma dt Z i j)) / (n_obs : ℚ) - K) 0

/-- `geometric_asian_call_closed_form(S0, K, r, T, sigma, n_obs)`.  Callers
guarantee `n_obs ≥ 1` (the source raises `ValueError` on `n_obs ≤ 0`). -/
def geometric_asian_call_closed_form (F : RealFuns) (S0 K r T sigma : ℚ)
    (n_obs : ℕ) : ℚ :=
  let n : ℚ := n_obs
  let mu := F.log S0 + (r - sigma ^ 2 / 2) * T * (n + 1) / (2 * n)
  let var_ln := sigma ^ 2 * T * ((n + 1) * (2 * n + 1) / (6 * n ^ 2))
  let sig_ln := F.sqrt var_ln
  let d1 := (mu - F.log K + var_ln) / sig_ln
  let d2 := d1 - sig_ln
  F.exp (-(r * T)) * (F.exp (mu + var_ln / 2) * F.cdf d1 - K * F.cdf d2)

/-- The `control_variate` sub-dict of a pricer's output (the source also
aliases it under the `control_variate_result` key). -/
structure CVOutput where
  controls : List String
  beta : List ℚ
  variance_reduction_factor : Option ℚ
  adjusted : EstimateStatistics
  deriving DecidableEq, Repr

/-- The output dict of the two Monte-Carlo pricers.  `qmc_scramble` is
`None` (here `none`) unless the method is a QMC method. -/
structure MCOutput where
  method : String
  qmc_scramble : Option Bool
  antithetic : Bool
  baseline : EstimateStatistics
  control_variate : Option CVOutput
  deriving DecidableEq, Repr

/-- `arithmetic_asian_call_mc`: validation, GBM path simulation via
`standard_normals`, discounted arithmetic-average payoff, baseline CI, and
(optionally) the geometric-Asian and discounted-terminal-price control
variates fed simultaneously into `control_variate_adjust_multi` (whose
shape validation passes by construction here, so its post-validation body
`cvAdjustCore` is applied at the source's default ridge). -/
def arithmetic_asian_call_mc (P : PRNG) (F : RealFuns) (S0 K r T sigma : ℚ)
    (n_obs n_paths seed : ℕ) (antithetic use_control_variate : Bool)
    (alpha : ℚ) (method : String) (qmc_scramble use_extra_control : Bool)
    (amb : RngState) : Except VRError MCOutput :=
  if hobs : n_obs = 0 then .error .InvalidInput
  else if n_paths < 1000 then .error .InvalidInput
  else if T ≤ 0 then .error .InvalidInput
  else if sigma ≤ 0 then .error .InvalidInput
  else if ¬ (method = "plain" ∨ method = "lhs" ∨ method = "sobol" ∨
      method = "halton") then .error .UnknownMethod
  else
    let dt := T / (n_obs : ℚ)
    let cfg : MCNormalConfig := ⟨method, antithetic, seed, qmc_scramble, false⟩
    match standard_normals P F n_paths n_obs cfg amb with
    | .error e => .error e
    | .ok Z =>
      let payoff := asianPayoff F S0 K r T sigma dt Z
      match mc_mean_ci F (List.ofFn payoff) alpha with
      | .error e => .error e
      | .ok baseStats =>
        let out : MCOutput := ⟨method,
          if method = "sobol" ∨ method = "halton" then some qmc_scramble else none,
          antithetic, baseStats, none⟩
        if use_control_variate = false then .ok out
        else
          let df := F.exp (-(r * T))
          let G := fun i => F.exp ((∑ j, asianLogS F S0 r sigma dt Z i j) / (n_obs : ℚ))
          let control1 := fun i => df * max (G i - K) 0
          let mu1 := geometric_asian_call_closed_form F S0 K r T sigma n_obs
          let control2 := fun i =>
            df * F.exp (asianLogS F S0 r sigma dt Z i ⟨n_obs - 1, by omega⟩)
          let mu2 := S0
          let Y : Matrix (Fin (effCount n_paths antithetic))
              (Fin (if use_extra_control then 2 else 1)) ℚ :=
            Matrix.of fun i j => if (j : ℕ) = 0 then control1 i else control2 i
          let mus : Fin (if use_extra_control then 2 else 1) → ℚ :=
            fun j => if (j : ℕ) = 0 then mu1 else mu2
          let res := cvAdjustCore F payoff Y mus defaultRidge
          match mc_mean_ci F (List.ofFn res.adjusted_samples) alpha with
          | .error e => .error e
          | .ok adjStats =>
            let cvout : CVOutput :=
              ⟨if use_extra_control then ["geom_asian_call", "disc_terminal_S"]
                else ["geom_asian_call"],
               List.ofFn res.beta, res.variance_reduction_factor, adjStats⟩
            .ok { out with control_variate := some cvout }

/-! ### Basket pricer (`stats237_course_v1_3_0/.../mc/basket.py`) -/

/-- `_lognormal_call_undiscounted(mean_log, var_log, K)` with its degenerate
`sig ≤ 0` branch. -/
def lognormal_call_undiscounted (F : RealFuns) (mean_log var_log K : ℚ) : ℚ :=
  let sig := F.sqrt var_log
  if sig ≤ 0 then max (F.exp mean_log - K) 0
  else
    let d1 := (mean_log - F.log K + var_log) / sig
    let d2 := d1 - sig
    F.exp (mean_log + var_log / 2) * F.cdf d1 - K * F.cdf d2

/-- `geometric_basket_call_closed_form` on shape-checked (typed) inputs; the
source re-validates the dimensions (vacuous here) and its weights-sum-to-1
`isclose` check is an explicit no-op (`pass`). -/
def geometric_basket_call_closed_form (F : RealFuns) {d : ℕ}
    (S0 w : Fin d → ℚ) (K r T : ℚ) (vol : Fin d → ℚ)
    (corr : Matrix (Fin d) (Fin d) ℚ) : ℚ :=
  let mean_log_G := (∑ j, w j * F.log (S0 j)) +
    (r - (∑ j, (w j * vol j) ^ 2) / 2) * T
  let var_log_G := (∑ a, ∑ b, w a * (vol a * vol b * corr a b) * w b) * T
  F.exp (-(r * T)) * lognormal_call_undiscounted F mean_log_G var_log_G K

/-- `basket_call_mc_vr`: the legacy `lhs` boolean is normalized into the
method selector before validation; then method validation, dimension checks
across `S0`/`w`/`vol`/`corr`, path-count and maturity checks, correlated
terminal-price simulation, discounted basket payoff, baseline CI and
(optionally) the geometric-basket and discounted-linear-basket controls. -/
def basket_call_mc_vr (P : PRNG) (F : RealFuns) (S0 w : List ℚ) (K r T : ℚ)
    (vol : List ℚ) (corr : List (List ℚ)) (n_paths seed : ℕ)
    (antithetic lhs use_control_variate : Bool) (alpha : ℚ) (method : String)
    (qmc_scramble use_extra_control : Bool) (amb : RngState) :
    Except VRError MCOutput :=
  let method2 := if lhs then "lhs" else method
  if ¬ (method2 = "plain" ∨ method2 = "lhs" ∨ method2 = "sobol" ∨
      method2 = "halton") then .error .UnknownMethod
  else
    let d := S0.length
    if ¬ (w.length = d ∧ vol.length = d ∧ corr.length = d ∧
        corr.all fun row => row.length = d) then .error .DimensionMismatch
    else if n_paths < 1000 then .error .InvalidInput
    else if T ≤ 0 then .error .InvalidInput
    else
      let S0v : Fin d → ℚ := fun j => S0.get j
      let wv : Fin d → ℚ := fun j => w.getD j 0
      let volv : Fin d → ℚ := fun j => vol.getD j 0
      let corrM : Matrix (Fin d) (Fin d) ℚ :=
        Matrix.of fun a b => (corr.getD a []).getD b 0
      let cfg : MCNormalConfig := ⟨method2, antithetic, seed, qmc_scramble, false⟩
      match correlated_normals P F n_paths corrM cfg amb with
      | .error e => .error e
      | .ok Z =>
        let ST := fun (i : Fin (effCount n_paths antithetic)) (j : Fin d) =>
          S0v j * F.exp ((r - volv j ^ 2 / 2) * T + volv j * F.sqrt T * Z i j)
        let basket := fun i => ∑ j, ST i j * wv j
        let df := F.exp (-(r * T))
        let payoff := fun i => df * max (basket i - K) 0
        match mc_mean_ci F (List.ofFn payoff) alpha with
        | .error e => .error e
        | .ok baseStats =>
          let out : MCOutput := ⟨method2,
            if method2 = "sobol" ∨ method2 = "halton" then some qmc_scramble
              else none,
            antithetic, baseStats, none⟩
          if use_control_variate = false then .ok out
          else
            let G := fun i => F.exp (∑ j, wv j * F.log (ST i j))
            let control1 := fun i => df * max (G i - K) 0
            let mu1 := geometric_basket_call_closed_form F S0v wv K r T volv corrM
            let control2 := fun i => df * basket i
            let mu2 := df * (∑ j, wv j * S0v j) * F.exp (r * T)
            let Y : Matrix (Fin (effCount n_paths antithetic))
                (Fin (if use_extra_control then 2 else 1)) ℚ :=
              Matrix.of fun i j => if (j : ℕ) = 0 then control1 i else control2 i
            let mus : Fin (if use_extra_control then 2 else 1) → ℚ :=
              fun j => if (j : ℕ) = 0 then mu1 else mu2
            let res := cvAdjustCore F payoff Y mus defaultRidge
            match mc_mean_ci F (List.ofFn res.adjusted_samples) alpha with
            | .error e => .error e
            | .ok adjStats =>
              let cvout : CVOutput :=
                ⟨if use_extra_control then
                    ["geom_basket_call", "disc_linear_basket"]
                  else ["geom_basket_call"],
                 List.ofFn res.beta, res.variance_reduction_factor, adjStats⟩
              .ok { out with control_variate := some cvout }

/-! ### Concrete instances of the abstract kernels, used by the witnesses -/

/-- A concrete (trivial) instance of the abstract numeric kernels. -/
def trivialRealFuns : RealFuns :=
  ⟨fun _ => 0, fun _ => 0, fun _ => 0, fun _ => 0, fun _ => 0, fun _ _ => some 1⟩

/-- A concrete (trivial) instance of the abstract pseudo-random sources. -/
def trivialPRNG : PRNG :=
  ⟨fun _ _ => 0, fun _ _ => 0, fun _ _ _ => Equiv.refl _, fun _ _ _ _ => 0,
   fun _ _ _ _ => 0⟩

/-! ### Helper lemmas about the estimator -/

/-- Solving against a zero right-hand side yields the zero weight vector in
both branches (invertible solve and singular fallback). -/
theorem linSolve_zero {k : ℕ} (A : Matrix (Fin k) (Fin k) ℚ) : linSolve A 0 = 0 := by
  unfold linSolve
  split
  · rfl
  · simp [Matrix.mulVec_zero]

/-- A column whose entries are all equal centers to zero. -/
theorem centerCols_const {n k : ℕ} (Y : Matrix (Fin n) (Fin k) ℚ) (hn : n ≠ 0)
    (hc : ∀ i i' j, Y i j = Y i' j) : centerCols Y = 0 := by
  funext i j
  have hsum : (∑ i', Y i' j) = (n : ℚ) * Y i j := by
    rw [Finset.sum_congr rfl fun i' _ => hc i' i j]
    simp [mul_comm]
  have hn' : (n : ℚ) ≠ 0 := Nat.cast_ne_zero.mpr hn
  simp only [centerCols, colMean, Matrix.of_apply, hsum]
  field_simp

/-- With columns of zero sample variance (all-constant columns), the computed
weights are zero. -/
theorem cvBeta_const_cols {n k : ℕ} (x : Fin n → ℚ) (Y : Matrix (Fin n) (Fin k) ℚ)
    (ridge : ℚ) (hn : n ≠ 0) (hc : ∀ i i' j, Y i j = Y i' j) :
    cvBeta x Y ridge = 0 := by
  have hYc : centerCols Y = 0 := centerCols_const Y hn hc
  have hcov : covVecYx Y x = 0 := by
    funext a
    simp [covVecYx, hYc]
  rw [cvBeta, hcov, linSolve_zero]

/-- C3 helper: zero weights leave the target unmodified. -/
theorem cvAdjusted_of_beta_zero {n k : ℕ} (x : Fin n → ℚ)
    (Y : Matrix (Fin n) (Fin k) ℚ) (ymeans : Fin k → ℚ) (ridge : ℚ)
    (hb : cvBeta x Y ridge = 0) : cvAdjusted x Y ymeans ridge = x := by
  funext i
  simp [cvAdjusted, hb]

/-- C6/C3 helper: the head of a nonempty list of `k`-length rows has length
`k`. -/
theorem headD_length_eq {k : ℕ} (Y : List (List ℚ)) (hY : Y ≠ [])
    (hrect : ∀ r ∈ Y, r.length = k) : (Y.headD []).length = k := by
  cases Y with
  | nil => exact absurd rfl hY
  | cons r Y' => exact hrect r (List.mem_cons_self r Y')

/-- C6: the validation of `control_variate_adjust_multi` fails with
`DimensionMismatch` exactly on a shape disagreement, with
`InsufficientSamples` exactly when shapes agree but fewer than two samples
are given, and succeeds otherwise.  `Y` is assumed to be a well-formed
(nonempty, rectangular) 2-D array with `k` columns, as `np.asarray`
guarantees on entry. -/
theorem cvam_error_taxonomy (F : RealFuns) (x ymeans : List ℚ)
    (Y : List (List ℚ)) (k : ℕ) (ridge : ℚ) (hY : Y ≠ [])
    (hrect : ∀ r ∈ Y, r.length = k) :
    ((control_variate_adjust_multi F x Y ymeans ridge = .error .DimensionMismatch) ↔
      (Y.length ≠ x.length ∨ ymeans.length ≠ k)) ∧
    ((control_variate_adjust_multi F x Y ymeans ridge = .error .InsufficientSamples) ↔
      (Y.length = x.length ∧ ymeans.length = k ∧ x.length < 2)) ∧
    ((∃ r, control_variate_adjust_multi F x Y ymeans ridge = .ok r) ↔
      (Y.length = x.length ∧ ymeans.length = k ∧ 2 ≤ x.length)) := by
  have hk : (Y.headD []).length = k := headD_length_eq Y hY hrect
  simp only [control_variate_adjust_multi, if_neg hY, hk]
  split_ifs with h1 h2 h3 <;>
    constructor <;> constructor <;> simp_all


/-- Witness for `cvam_error_taxonomy` (C6) at concrete shapes: a matching
3-sample, one-control input succeeds, and chopping a row off `Y` yields
`DimensionMismatch`. -/
theorem cvam_error_taxonomy_witness :
    ([[ (1:ℚ)], [2], [3]] ≠ ([] : List (List ℚ))) ∧
    (∀ r ∈ [[(1:ℚ)], [2], [3]], r.length = 1) ∧
    (∃ res, control_variate_adjust_multi trivialRealFuns [1, 2, 4] [[1], [2], [3]]
      [5] 0 = .ok res) ∧
    (control_variate_adjust_multi trivialRealFuns [1, 2, 4] [[1], [2]] [5] 0 =
      .error .DimensionMismatch) := by
  refine ⟨by decide, by decide, ?_, ?_⟩
  · exact (cvam_error_taxonomy trivialRealFuns [1, 2, 4] [5] [[1], [2], [3]] 1 0
      (by decide) (by decide)).2.2.mpr (by decide)
  · exact (cvam_error_taxonomy trivialRealFuns [1, 2, 4] [5] [[1], [2]] 1 0
      (by decide) (by decide)).1.mpr (by decide)

/-- C3: a single control column of zero sample variance (all entries equal)
does not fail: the estimator returns `beta = 0` and the unmodified target. -/
theorem cv_degenerate_single_control (F : RealFuns) (x : List ℚ)
    (Y : List (List ℚ)) (c m ridge : ℚ) (h2 : 2 ≤ x.length)
    (hlen : Y.length = x.length) (hrows : ∀ r ∈ Y, r = [c]) :
    ∃ res, control_variate_adjust_multi F x Y [m] ridge = .ok res ∧
      res.beta = 0 ∧ res.adjusted_samples = fun i => x.get i := by
  have hY : Y ≠ [] := by
    intro h
    rw [h] at hlen
    simp at hlen
    omega
  have hhead : (Y.headD []).length = 1 := by
    cases Y with
    | nil => exact absurd rfl hY
    | cons r Y' =>
      rw [List.headD_cons, hrows r (List.mem_cons_self r Y')]
      rfl
  have hn2 : ¬ x.length < 2 := by omega
  have hbeta : cvBeta (fun i => x.get i)
      (Matrix.of fun (i : Fin x.length) (j : Fin 1) => (Y.getD i []).getD j 0)
      ridge = 0 := by
    refine cvBeta_const_cols _ _ _ (by omega) ?_
    intro i i' j
    have hYi : Y.getD (i : ℕ) [] = [c] := by
      have h : (i : ℕ) < Y.length := by omega
      rw [List.getD_eq_getElem Y [] h]
      exact hrows _ (List.getElem_mem h)
    have hYi' : Y.getD (i' : ℕ) [] = [c] := by
      have h : (i' : ℕ) < Y.length := by omega
      rw [List.getD_eq_getElem Y [] h]
      exact hrows _ (List.getElem_mem h)
    simp only [Matrix.of_apply, hYi, hYi']
  refine ⟨cvAdjustCore F (fun i => x.get i)
      (Matrix.of fun (i : Fin x.length) (j : Fin 1) => (Y.getD i []).getD j 0)
      (fun j => ([m] : List ℚ).get j) ridge, ?_, ?_, ?_⟩
  · simp only [control_variate_adjust_multi, if_neg hY, hlen, hhead]
    rw [if_neg (by simp), if_neg (by simp), if_neg hn2]
    rfl
  · simpa only [cvAdjustCore] using hbeta
  · simpa only [cvAdjustCore] using cvAdjusted_of_beta_zero _ _ _ _ hbeta

/-- Witness for `cv_degenerate_single_control` (C3): target `[1, 5, 2]`,
constant control column `7`, known control mean `3`. -/
theorem cv_degenerate_single_control_witness :
    2 ≤ [(1 : ℚ), 5, 2].length ∧
    (∃ res, control_variate_adjust_multi trivialRealFuns [(1 : ℚ), 5, 2]
      [[7], [7], [7]] [3] defaultRidge = .ok res ∧
      res.beta = 0 ∧ res.adjusted_samples = fun i => [(1 : ℚ), 5, 2].get i) :=
  ⟨by decide,
   cv_degenerate_single_control trivialRealFuns [1, 5, 2] [[7], [7], [7]] 7 3
     defaultRidge (by decide) (by decide) (by decide)⟩

/-! ### C1: the optimal-beta adjustment never increases the sample variance -/

/-- When the regularized covariance is invertible, the computed weights solve
the linear system (the exact-arithmetic content of `np.linalg.solve`). -/
theorem linSolve_spec {k : ℕ} (A : Matrix (Fin k) (Fin k) ℚ) (b : Fin k → ℚ)
    (h : A.det ≠ 0) : A.mulVec (linSolve A b) = b := by
  rw [linSolve, if_neg h, Matrix.mulVec_smul, Matrix.mulVec_mulVec,
    Matrix.mul_adjugate, Matrix.smul_mulVec_assoc, Matrix.one_mulVec,
    smul_smul, inv_mul_cancel₀ h, one_smul]

/-- The mean of the adjusted samples shifts by the weighted gap between the
known control means and the empirical column means. -/
theorem vecMean_cvAdjusted {n k : ℕ} (x : Fin n → ℚ) (Y : Matrix (Fin n) (Fin k) ℚ)
    (ymeans : Fin k → ℚ) (ridge : ℚ) (hn : (n : ℚ) ≠ 0) :
    vecMean (cvAdjusted x Y ymeans ridge) =
      vecMean x + ∑ j, (ymeans j - colMean Y j) * cvBeta x Y ridge j := by
  unfold vecMean cvAdjusted colMean
  rw [Finset.sum_add_distrib, add_div, Finset.sum_comm]
  congr 1
  rw [Finset.sum_div]
  refine Finset.sum_congr rfl fun j _ => ?_
  rw [← Finset.sum_mul, Finset.sum_sub_distrib, Finset.sum_const, Finset.card_univ,
    Fintype.card_fin, nsmul_eq_mul]
  have hdiv : ((n : ℚ) * ymeans j - ∑ i, Y i j) / n = ymeans j - (∑ i, Y i j) / n := by
    rw [sub_div, mul_div_cancel_left₀ _ hn]
  rw [mul_comm, mul_div_assoc, hdiv, mul_comm]

/-- The adjusted deviations from the mean are the centered target minus the
centered controls applied to the weights. -/
theorem centerVec_cvAdjusted {n k : ℕ} (x : Fin n → ℚ)
    (Y : Matrix (Fin n) (Fin k) ℚ) (ymeans : Fin k → ℚ) (ridge : ℚ)
    (hn : (n : ℚ) ≠ 0) :
    centerVec (cvAdjusted x Y ymeans ridge) = fun i =>
      centerVec x i - (centerCols Y).mulVec (cvBeta x Y ridge) i := by
  funext i
  have hmean := vecMean_cvAdjusted x Y ymeans ridge hn
  have hsum : (∑ j, (ymeans j - Y i j) * cvBeta x Y ridge j) -
      (∑ j, (ymeans j - colMean Y j) * cvBeta x Y ridge j) =
      -∑ j, centerCols Y i j * cvBeta x Y ridge j := by
    rw [← Finset.sum_sub_distrib, ← Finset.sum_neg_distrib]
    exact Finset.sum_congr rfl fun j _ => by
      simp only [centerCols, Matrix.of_apply]
      ring
  simp only [centerVec, cvAdjusted, Matrix.mulVec, Matrix.dotProduct, hmean]
  linarith [hsum]

/-- `xc ᵥ* Yc = (n - 1) • covYx`. -/
theorem vecMul_centered {n k : ℕ} (x : Fin n → ℚ) (Y : Matrix (Fin n) (Fin k) ℚ)
    (hn1 : ((n : ℚ) - 1) ≠ 0) :
    Matrix.vecMul (centerVec x) (centerCols Y) = ((n : ℚ) - 1) • covVecYx Y x := by
  funext j
  simp only [Matrix.vecMul, Matrix.dotProduct, covVecYx, Pi.smul_apply, smul_eq_mul]
  rw [mul_div_cancel₀ _ hn1]
  exact Finset.sum_congr rfl fun i _ => mul_comm _ _

/-- `covYY = (n - 1)⁻¹ • (Yc.T @ Yc)`. -/
theorem covMatYY_eq {n k : ℕ} (Y : Matrix (Fin n) (Fin k) ℚ) :
    covMatYY Y = ((n : ℚ) - 1)⁻¹ • ((centerCols Y).transpose * centerCols Y) := by
  ext a b
  simp only [covMatYY, Matrix.of_apply, Matrix.smul_apply, Matrix.mul_apply,
    Matrix.transpose_apply, smul_eq_mul]
  rw [div_eq_inv_mul]

/-- The quadratic form of `Yc.T @ Yc` is the squared norm of `Yc @ β`. -/
theorem quadform_gram {n k : ℕ} (Y : Matrix (Fin n) (Fin k) ℚ) (β : Fin k → ℚ) :
    Matrix.dotProduct β (((centerCols Y).transpose * centerCols Y).mulVec β) =
      Matrix.dotProduct ((centerCols Y).mulVec β) ((centerCols Y).mulVec β) := by
  rw [← Matrix.mulVec_mulVec, Matrix.dotProduct_mulVec, Matrix.vecMul_transpose]

/-- Core inequality (C1): the variance-minimizing (ridge-regularized)
control-variate adjustment never increases the sample variance. -/
theorem sampleVar_cvAdjusted_le {n k : ℕ} (x : Fin n → ℚ)
    (Y : Matrix (Fin n) (Fin k) ℚ) (ymeans : Fin k → ℚ) (ridge : ℚ)
    (h2 : 2 ≤ n) (hr : 0 ≤ ridge) :
    sampleVar (cvAdjusted x Y ymeans ridge) ≤ sampleVar x := by
  have hn1pos : (0 : ℚ) < (n : ℚ) - 1 := by
    have : (2 : ℚ) ≤ (n : ℚ) := by exact_mod_cast h2
    linarith
  have hn1 : ((n : ℚ) - 1) ≠ 0 := ne_of_gt hn1pos
  have hn : (n : ℚ) ≠ 0 := by
    intro h
    rw [h] at hn1pos
    norm_num at hn1pos
  by_cases hdet : (ridgedCov Y ridge).det = 0
  · have hb : cvBeta x Y ridge = 0 := by
      rw [cvBeta, linSolve, if_pos hdet]
    rw [cvAdjusted_of_beta_zero x Y ymeans ridge hb]
  · set β := cvBeta x Y ridge with hβ
    set Yc := centerCols Y with hYc
    set xc := centerVec x with hxc
    set w := Yc.mulVec β with hw
    have hsolve : (ridgedCov Y ridge).mulVec β = covVecYx Y x :=
      linSolve_spec _ _ hdet
    -- S1 = xc ⬝ w, S2 = w ⬝ w
    have hS1 : Matrix.dotProduct xc w =
        ((n : ℚ) - 1) * Matrix.dotProduct (covVecYx Y x) β := by
      rw [hw, Matrix.dotProduct_mulVec, vecMul_centered x Y hn1,
        Matrix.smul_dotProduct, smul_eq_mul]
    have hquad : Matrix.dotProduct β ((covMatYY Y).mulVec β) =
        ((n : ℚ) - 1)⁻¹ * Matrix.dotProduct w w := by
      rw [covMatYY_eq, Matrix.smul_mulVec_assoc, Matrix.dotProduct_smul,
        smul_eq_mul, quadform_gram, hw]
    have hdotc : Matrix.dotProduct (covVecYx Y x) β =
        ((n : ℚ) - 1)⁻¹ * Matrix.dotProduct w w +
          ridge * Matrix.dotProduct β β := by
      rw [← hsolve, ridgedCov, Matrix.add_mulVec, Matrix.smul_mulVec_assoc,
        Matrix.one_mulVec, Matrix.dotProduct_comm, Matrix.dotProduct_add,
        hquad, Matrix.dotProduct_smul, smul_eq_mul]
    have hS1' : Matrix.dotProduct xc w =
        Matrix.dotProduct w w + ((n : ℚ) - 1) * ridge * Matrix.dotProduct β β := by
      rw [hS1, hdotc]
      field_simp
      ring
    have hww : 0 ≤ Matrix.dotProduct w w :=
      Finset.sum_nonneg fun i _ => mul_self_nonneg _
    have hββ : 0 ≤ Matrix.dotProduct β β :=
      Finset.sum_nonneg fun i _ => mul_self_nonneg _
    have hkey : 0 ≤ 2 * Matrix.dotProduct xc w - Matrix.dotProduct w w := by
      rw [hS1']
      have : 0 ≤ ((n : ℚ) - 1) * ridge * Matrix.dotProduct β β :=
        mul_nonneg (mul_nonneg (le_of_lt hn1pos) hr) hββ
      linarith
    -- numerator comparison
    have hnum : ∑ i, (centerVec (cvAdjusted x Y ymeans ridge) i) ^ 2 =
        ∑ i, xc i ^ 2 -
          (2 * Matrix.dotProduct xc w - Matrix.dotProduct w w) := by
      rw [centerVec_cvAdjusted x Y ymeans ridge hn]
      have hexp : ∀ i, (xc i - w i) ^ 2 =
          xc i ^ 2 - 2 * (xc i * w i) + w i * w i := fun i => by ring
      rw [Finset.sum_congr rfl fun i _ => hexp i, Finset.sum_add_distrib,
        Finset.sum_sub_distrib, ← Finset.mul_sum]
      simp only [Matrix.dotProduct]
      ring
    have hfinal : ∑ i, (centerVec (cvAdjusted x Y ymeans ridge) i) ^ 2 ≤
        ∑ i, xc i ^ 2 := by
      rw [hnum]
      linarith
    unfold sampleVar
    exact (div_le_div_iff_of_pos_right hn1pos).mpr hfinal

/-- C1: for every target of length `n ≥ 2`, every controls matrix with known
control means, and every `ridge ≥ 0`, the `control_variate_adjust_multi`
result satisfies `adjusted_sd ≤ baseline_sd` (the float `sqrt` kernel is
assumed monotone).  The typed arguments carry exactly the shape contract
under which the wrapper's validation passes and `cvAdjustCore` is run. -/
theorem cv_adjusted_sd_le_baseline_sd (F : RealFuns) {n k : ℕ} (x : Fin n → ℚ)
    (Y : Matrix (Fin n) (Fin k) ℚ) (ymeans : Fin k → ℚ) (ridge : ℚ)
    (h2 : 2 ≤ n) (hr : 0 ≤ ridge)
    (hmono : ∀ a b : ℚ, a ≤ b → F.sqrt a ≤ F.sqrt b) :
    (cvAdjustCore F x Y ymeans ridge).adjusted_sd ≤
      (cvAdjustCore F x Y ymeans ridge).baseline_sd :=
  hmono _ _ (sampleVar_cvAdjusted_le x Y ymeans ridge h2 hr)

/-- Witness for `cv_adjusted_sd_le_baseline_sd` (C1): three samples, one
control, the source's default ridge. -/
theorem cv_adjusted_sd_le_baseline_sd_witness :
    2 ≤ 3 ∧ (0 : ℚ) ≤ defaultRidge ∧
    (∀ a b : ℚ, a ≤ b → trivialRealFuns.sqrt a ≤ trivialRealFuns.sqrt b) ∧
    (cvAdjustCore trivialRealFuns ![(1 : ℚ), 5, 2]
        (Matrix.of fun i _ => ![(2 : ℚ), 3, 9] i) ![4] defaultRidge).adjusted_sd ≤
      (cvAdjustCore trivialRealFuns ![(1 : ℚ), 5, 2]
        (Matrix.of fun i _ => ![(2 : ℚ), 3, 9] i) ![4] defaultRidge).baseline_sd :=
  ⟨by norm_num, by norm_num [defaultRidge], fun a b h => le_refl 0,
   cv_adjusted_sd_le_baseline_sd trivialRealFuns ![(1 : ℚ), 5, 2]
     (Matrix.of fun i _ => ![(2 : ℚ), 3, 9] i) ![4] defaultRidge (by norm_num)
     (by norm_num [defaultRidge]) (fun a b h => le_refl 0)⟩

/-! ### C4: antithetic effective-count invariant -/

/-- C4: for positive `n`, `d` and a recognized method the sampler succeeds,
returning a matrix with `effCount n cfg.antithetic` rows; with antithetic
pairing that count is exactly `2 * ceil(n / 2)` — an even number, at least
`n`, and equal to `n + 1` when `n` is odd — and without it exactly `n`. -/
theorem standard_normals_row_count (P : PRNG) (F : RealFuns) (n d : ℕ)
    (cfg : MCNormalConfig) (amb : RngState) (hn : 0 < n) (hd : 0 < d)
    (hm : cfg.method = "plain" ∨ cfg.method = "lhs" ∨ cfg.method = "sobol" ∨
      cfg.method = "halton") :
    (∃ M, standard_normals P F n d cfg amb = .ok M) ∧
    effCount n true = 2 * ((n + 1) / 2) ∧
    2 ∣ effCount n true ∧
    n ≤ effCount n true ∧
    (n % 2 = 1 → effCount n true = n + 1) ∧
    effCount n false = n := by
  have hn0 : ¬ n = 0 := by omega
  have hd0 : ¬ d = 0 := by omega
  have hb : ¬ nBase n cfg.antithetic = 0 := by
    cases cfg.antithetic <;> simp [nBase] <;> omega
  refine ⟨?_, rfl, ⟨(n + 1) / 2, rfl⟩, ?_, ?_, rfl⟩
  · rcases hm with h | h | h | h
    · exact ⟨plainNormals P n d cfg amb, by simp [standard_normals, hn0, hd0, h]⟩
    · exact ⟨lhsNormals P F n d cfg amb, by simp [standard_normals, hn0, hd0, h, hb]⟩
    · exact ⟨qmcNormals P F n d cfg, by simp [standard_normals, hn0, hd0, h]⟩
    · exact ⟨qmcNormals P F n d cfg, by simp [standard_normals, hn0, hd0, h]⟩
  · show n ≤ 2 * ((n + 1) / 2)
    omega
  · intro hodd
    show 2 * ((n + 1) / 2) = n + 1
    omega

/-- Witness for `standard_normals_row_count` (C4) at `n = 5`, `d = 2`,
antithetic on. -/
theorem standard_normals_row_count_witness :
    0 < 5 ∧ 0 < 2 ∧
    ((∃ M, standard_normals trivialPRNG trivialRealFuns 5 2
        ⟨"plain", true, 123, true, false⟩ ⟨0, 0⟩ = .ok M) ∧
      effCount 5 true = 2 * ((5 + 1) / 2) ∧
      2 ∣ effCount 5 true ∧
      5 ≤ effCount 5 true ∧
      (5 % 2 = 1 → effCount 5 true = 5 + 1) ∧
      effCount 5 false = 5) :=
  ⟨by norm_num, by norm_num,
   standard_normals_row_count trivialPRNG trivialRealFuns 5 2
     ⟨"plain", true, 123, true, false⟩ ⟨0, 0⟩ (by norm_num) (by norm_num)
     (Or.inl rfl)⟩

/-! ### C7: Latin-hypercube stratification -/

/-- Stratum membership: `(a + r) / n` lies in stratum `s` of the `n` equal
strata of `(0,1)` exactly when `a = s`, for any fractional offset
`0 ≤ r < 1`. -/
theorem stratum_mem_iff {n : ℕ} (hn : 0 < n) (a s : Fin n) (r : ℚ)
    (hr0 : 0 ≤ r) (hr1 : r < 1) :
    ((s : ℚ) / n ≤ (((a : ℕ) : ℚ) + r) / n ∧
      (((a : ℕ) : ℚ) + r) / n < ((s : ℚ) + 1) / n) ↔ a = s := by
  have hnq : (0 : ℚ) < n := by exact_mod_cast hn
  rw [div_le_div_iff_of_pos_right hnq, div_lt_div_iff_of_pos_right hnq]
  constructor
  · rintro ⟨hlo, hhi⟩
    have h1 : ((s : ℕ) : ℚ) < ((a : ℕ) : ℚ) + 1 := by linarith
    have h2 : ((a : ℕ) : ℚ) < ((s : ℕ) : ℚ) + 1 := by linarith
    have h1' : (s : ℕ) < (a : ℕ) + 1 := by exact_mod_cast h1
    have h2' : (a : ℕ) < (s : ℕ) + 1 := by exact_mod_cast h2
    exact Fin.ext (by omega)
  · rintro rfl
    constructor <;> linarith

/-- C7: for every `n > 0`, `d > 0` and seeded generator producing uniforms in
`[0,1)`, `_lhs_uniforms` succeeds and each of its `d` columns has exactly
one entry in each of the `n` equal strata `[s/n, (s+1)/n)` (the stratum of
row `i` being assigned by the column's shuffle permutation); moreover each
clipped entry lies strictly inside `(0,1)` before quantile inversion. -/
theorem lhs_uniforms_stratified (P : PRNG) (st : RngState) (n d : ℕ)
    (hn : 0 < n) (hd : 0 < d)
    (huni : ∀ s i, 0 ≤ P.uniform s i ∧ P.uniform s i < 1) :
    ∃ U, lhs_uniforms P st n d = .ok U ∧
      (∀ j : Fin d, ∀ s : Fin n, ∃! i : Fin n,
        (s : ℚ) / n ≤ U i j ∧ U i j < ((s : ℚ) + 1) / n) ∧
      (∀ (i : Fin n) (j : Fin d), 0 < clipU (U i j) ∧ clipU (U i j) < 1) := by
  have hn0 : ¬ n = 0 := by omega
  have hd0 : ¬ d = 0 := by omega
  refine ⟨lhsUniformsCore P st n d, by simp [lhs_uniforms, hn0, hd0], ?_, ?_⟩
  · intro j s
    set σ := P.shuffle st.seed (st.counter + 2 * n * (j : ℕ) + n) n with hσ
    have hmem : ∀ i : Fin n,
        ((s : ℚ) / n ≤ lhsUniformsCore P st n d i j ∧
          lhsUniformsCore P st n d i j < ((s : ℚ) + 1) / n) ↔ σ i = s := by
      intro i
      obtain ⟨hr0, hr1⟩ :=
        huni st.seed (st.counter + 2 * n * (j : ℕ) + ((σ i : ℕ)))
      exact stratum_mem_iff hn (σ i) s _ hr0 hr1
    refine ⟨σ.symm s, (hmem (σ.symm s)).mpr (σ.apply_symm_apply s), ?_⟩
    intro i' hi'
    have hs : σ i' = s := (hmem i').mp hi'
    rw [← hs, Equiv.symm_apply_apply]
  · intro i j
    constructor
    · calc (0 : ℚ) < 1 / 1000000000000 := by norm_num
        _ ≤ clipU (lhsUniformsCore P st n d i j) := le_max_left _ _
    · have hle : clipU (lhsUniformsCore P st n d i j) ≤ 1 - 1 / 1000000000000 :=
        max_le (by norm_num) (min_le_left _ _)
      linarith

/-- Witness for `lhs_uniforms_stratified` (C7) at `n = 3`, `d = 2`. -/
theorem lhs_uniforms_stratified_witness :
    0 < 3 ∧ 0 < 2 ∧
    (∀ s i, 0 ≤ trivialPRNG.uniform s i ∧ trivialPRNG.uniform s i < 1) ∧
    (∃ U, lhs_uniforms trivialPRNG ⟨123, 0⟩ 3 2 = .ok U ∧
      (∀ j : Fin 2, ∀ s : Fin 3, ∃! i : Fin 3,
        (s : ℚ) / 3 ≤ U i j ∧ U i j < ((s : ℚ) + 1) / 3) ∧
      (∀ (i : Fin 3) (j : Fin 2), 0 < clipU (U i j) ∧ clipU (U i j) < 1)) :=
  ⟨by norm_num, by norm_num, fun s i => by norm_num [trivialPRNG],
   lhs_uniforms_stratified trivialPRNG ⟨123, 0⟩ 3 2 (by norm_num) (by norm_num)
     (fun s i => by norm_num [trivialPRNG])⟩

/-! ### C2: determinism (no dependence on ambient generator state) -/

/-- A call whose config carries no caller generator reads nothing but the
seed: the ambient generator state can be replaced by the canonical fresh
state without changing the draws. -/
theorem standard_normals_amb (P : PRNG) (F : RealFuns) (n d : ℕ) (m : String)
    (a : Bool) (sd : ℕ) (q : Bool) (amb : RngState) :
    standard_normals P F n d ⟨m, a, sd, q, false⟩ amb =
      standard_normals P F n d ⟨m, a, sd, q, false⟩ ⟨sd, 0⟩ := by
  simp [standard_normals, plainNormals, lhsNormals, qmcNormals, rngOf]

/-- Same for the correlated variant. -/
theorem correlated_normals_amb (P : PRNG) (F : RealFuns) (n : ℕ) {d : ℕ}
    (corr : Matrix (Fin d) (Fin d) ℚ) (m : String) (a : Bool) (sd : ℕ)
    (q : Bool) (amb : RngState) :
    correlated_normals P F n corr ⟨m, a, sd, q, false⟩ amb =
      correlated_normals P F n corr ⟨m, a, sd, q, false⟩ ⟨sd, 0⟩ := by
  unfold correlated_normals
  rw [standard_normals_amb]

/-- C2: with `cfg.rng` unset, two `standard_normals` calls with identical
arguments return identical matrices regardless of any ambient generator
state; consequently the Asian and basket pricers (which always construct
their config with no caller generator) return identical results — in
particular identical baseline means and, when control variates are on,
identical adjusted means — across such calls. -/
theorem determinism_identical_args (P : PRNG) (F : RealFuns) (n d : ℕ)
    (cfg : MCNormalConfig) (h : cfg.useCallerRng = false)
    (S0 K r T sigma : ℚ) (n_obs n_paths seed : ℕ)
    (anti ucv : Bool) (alpha : ℚ) (method : String) (qs uec : Bool)
    (S0l wl voll : List ℚ) (corr : List (List ℚ)) (K2 r2 T2 alpha2 : ℚ)
    (np2 seed2 : ℕ) (anti2 lhs2 ucv2 qs2 uec2 : Bool) (method2 : String)
    (s1 s2 : RngState) :
    standard_normals P F n d cfg s1 = standard_normals P F n d cfg s2 ∧
    arithmetic_asian_call_mc P F S0 K r T sigma n_obs n_paths seed anti ucv
        alpha method qs uec s1 =
      arithmetic_asian_call_mc P F S0 K r T sigma n_obs n_paths seed anti ucv
        alpha method qs uec s2 ∧
    basket_call_mc_vr P F S0l wl K2 r2 T2 voll corr np2 seed2 anti2 lhs2 ucv2
        alpha2 method2 qs2 uec2 s1 =
      basket_call_mc_vr P F S0l wl K2 r2 T2 voll corr np2 seed2 anti2 lhs2 ucv2
        alpha2 method2 qs2 uec2 s2 := by
  refine ⟨?_, ?_, ?_⟩
  · obtain ⟨m, a, sd, q, u⟩ := cfg
    simp only at h
    subst h
    rw [standard_normals_amb P F n d m a sd q s1,
      standard_normals_amb P F n d m a sd q s2]
  · simp only [arithmetic_asian_call_mc]
    rw [standard_normals_amb P F n_paths n_obs method anti seed qs s1,
      standard_normals_amb P F n_paths n_obs method anti seed qs s2]
  · simp only [basket_call_mc_vr]
    rw [correlated_normals_amb P F np2 _ _ anti2 seed2 qs2 s1,
      correlated_normals_amb P F np2 _ _ anti2 seed2 qs2 s2]

/-- Witness for `determinism_identical_args` (C2): concrete seeds and two
distinct ambient generator states. -/
theorem determinism_identical_args_witness :
    (⟨"plain", true, 123, true, false⟩ : MCNormalConfig).useCallerRng = false ∧
    (standard_normals trivialPRNG trivialRealFuns 4 3
        ⟨"plain", true, 123, true, false⟩ ⟨7, 11⟩ =
      standard_normals trivialPRNG trivialRealFuns 4 3
        ⟨"plain", true, 123, true, false⟩ ⟨9, 2⟩ ∧
    arithmetic_asian_call_mc trivialPRNG trivialRealFuns 100 100 (3/100) 1
        (2/10) 50 2000 123 true true (1/20) "plain" true true ⟨7, 11⟩ =
      arithmetic_asian_call_mc trivialPRNG trivialRealFuns 100 100 (3/100) 1
        (2/10) 50 2000 123 true true (1/20) "plain" true true ⟨9, 2⟩ ∧
    basket_call_mc_vr trivialPRNG trivialRealFuns [100, 95] [1/2, 1/2] 100
        (2/100) 1 [2/10, 1/4] [[1, 0], [0, 1]] 2000 321 true false true (1/20)
        "plain" true true ⟨7, 11⟩ =
      basket_call_mc_vr trivialPRNG trivialRealFuns [100, 95] [1/2, 1/2] 100
        (2/100) 1 [2/10, 1/4] [[1, 0], [0, 1]] 2000 321 true false true (1/20)
        "plain" true true ⟨9, 2⟩) :=
  ⟨rfl,
   determinism_identical_args trivialPRNG trivialRealFuns 4 3
     ⟨"plain", true, 123, true, false⟩ rfl 100 100 (3/100) 1 (2/10) 50 2000 123
     true true (1/20) "plain" true true [100, 95] [1/2, 1/2] [2/10, 1/4]
     [[1, 0], [0, 1]] 100 (2/100) 1 (1/20) 2000 321 true false true true true
     "plain" ⟨7, 11⟩ ⟨9, 2⟩⟩

/-! ### C5: the simulated log-price path and per-path payoff -/

/-- `np.cumsum` in closed form, as a recursion on the raw index. -/
theorem cumsum_eq_sum_aux {m : ℕ} (f : Fin m → ℚ) :
    ∀ (jv : ℕ) (hj : jv < m),
      cumsum f ⟨jv, hj⟩ = ∑ t : Fin (jv + 1), f (Fin.castLE hj t) := by
  intro jv
  induction jv with
  | zero =>
    intro hj
    simp only [cumsum]
    rw [Fin.sum_univ_one]
    rfl
  | succ p ih =>
    intro hj
    have hp : p < m := Nat.lt_of_succ_lt hj
    have hstep : cumsum f ⟨p + 1, hj⟩ =
        cumsum f ⟨p, Nat.lt_of_succ_lt hj⟩ + f ⟨p + 1, hj⟩ := by
      simp [cumsum]
    rw [hstep, ih hp]
    conv_rhs => rw [Fin.sum_univ_castSucc]
    congr 1

/-- `np.cumsum` in closed form: the prefix sum up to monitoring index `j`. -/
theorem cumsum_eq_sum {m : ℕ} (f : Fin m → ℚ) (j : Fin m) :
    cumsum f j = ∑ t : Fin ((j : ℕ) + 1), f (Fin.castLE j.isLt t) := by
  obtain ⟨jv, hj⟩ := j
  exact cumsum_eq_sum_aux f jv hj

/-- C5: for valid Asian-pricer inputs, every simulated log-price equals
`log(S0)` plus the prefix sum of the first `j + 1` risk-neutral GBM
increments `(r - sigma^2/2) dt + sigma sqrt(dt) Z[i, t]` with
`dt = T / n_obs`, and every per-path discounted payoff equals
`exp(-r T) * max(mean of S over the monitoring dates - K, 0)`. -/
theorem asian_logprice_and_payoff (F : RealFuns) (S0 K r T sigma : ℚ)
    (n_obs n_paths : ℕ) (hobs : 0 < n_obs) (hpaths : 1000 ≤ n_paths)
    (hT : 0 < T) (hsig : 0 < sigma) {m : ℕ}
    (Z : Matrix (Fin m) (Fin n_obs) ℚ) (i : Fin m) (j : Fin n_obs) :
    asianLogS F S0 r sigma (T / (n_obs : ℚ)) Z i j =
      F.log S0 + ∑ t : Fin ((j : ℕ) + 1),
        ((r - sigma ^ 2 / 2) * (T / (n_obs : ℚ)) +
          sigma * F.sqrt (T / (n_obs : ℚ)) * Z i (Fin.castLE j.isLt t)) ∧
    asianPayoff F S0 K r T sigma (T / (n_obs : ℚ)) Z i =
      F.exp (-(r * T)) *
        max ((∑ jj, F.exp (asianLogS F S0 r sigma (T / (n_obs : ℚ)) Z i jj)) /
          (n_obs : ℚ) - K) 0 :=
  ⟨by unfold asianLogS; rw [cumsum_eq_sum]; rfl, rfl⟩

/-- Witness for `asian_logprice_and_payoff` (C5) at a one-date, one-path
concrete configuration. -/
theorem asian_logprice_and_payoff_witness :
    0 < 1 ∧ 1000 ≤ 1000 ∧ (0 : ℚ) < 1 ∧ (0 : ℚ) < 1 ∧
    (asianLogS trivialRealFuns 1 1 1 (1 / ((1 : ℕ) : ℚ))
        (Matrix.of fun _ _ => (0 : ℚ) : Matrix (Fin 1) (Fin 1) ℚ) 0 0 =
      trivialRealFuns.log 1 + ∑ t : Fin (((0 : Fin 1) : ℕ) + 1),
        ((1 - 1 ^ 2 / 2) * (1 / ((1 : ℕ) : ℚ)) +
          1 * trivialRealFuns.sqrt (1 / ((1 : ℕ) : ℚ)) *
            (Matrix.of fun _ _ => (0 : ℚ) : Matrix (Fin 1) (Fin 1) ℚ) 0 (Fin.castLE (0 : Fin 1).isLt t)) ∧
     asianPayoff trivialRealFuns 1 1 1 1 1 (1 / ((1 : ℕ) : ℚ))
        (Matrix.of fun _ _ => (0 : ℚ) : Matrix (Fin 1) (Fin 1) ℚ) 0 =
      trivialRealFuns.exp (-(1 * 1)) *
        max ((∑ jj, trivialRealFuns.exp (asianLogS trivialRealFuns 1 1 1
          (1 / ((1 : ℕ) : ℚ)) (Matrix.of fun _ _ => (0 : ℚ) : Matrix (Fin 1) (Fin 1) ℚ) 0 jj)) /
          ((1 : ℕ) : ℚ) - 1) 0) :=
  ⟨by norm_num, by norm_num, by norm_num, by norm_num,
   asian_logprice_and_payoff trivialRealFuns 1 1 1 1 1 1 1000 (by norm_num)
     (by norm_num) (by norm_num) (by norm_num)
     (Matrix.of fun _ _ => (0 : ℚ) : Matrix (Fin 1) (Fin 1) ℚ) 0 0⟩

/-! ### C9: confidence-interval invariants of `mc_mean_ci` -/

/-- The sample variance of a list is nonnegative once at least two samples
are present. -/
theorem listVar_nonneg (xs : List ℚ) (h2 : 2 ≤ xs.length) : 0 ≤ listVar xs := by
  unfold listVar
  apply div_nonneg
  · apply List.sum_nonneg
    intro v hv
    obtain ⟨u, _, rfl⟩ := List.mem_map.mp hv
    positivity
  · have : (2 : ℚ) ≤ (xs.length : ℚ) := by exact_mod_cast h2
    linarith

/-- C9: for at least two samples and `alpha ∈ (0,1)`, `mc_mean_ci` succeeds
with `ci_low ≤ mean ≤ ci_high`, and the interval is symmetric about the
mean with half-width `z * se`, where `z = norm.ppf(1 - alpha/2)` and
`se = sd / sqrt(n)` (the quantile and square-root kernels are assumed
nonnegative on `[1/2, 1)` resp. `[0, ∞)`). -/
theorem mc_mean_ci_interval (F : RealFuns) (xs : List ℚ) (alpha : ℚ)
    (h2 : 2 ≤ xs.length) (ha0 : 0 < alpha) (ha1 : alpha < 1)
    (hsqrt : ∀ q : ℚ, 0 ≤ q → 0 ≤ F.sqrt q)
    (hppf : ∀ q : ℚ, 1 / 2 ≤ q → 0 ≤ F.ppf q) :
    ∃ st, mc_mean_ci F xs alpha = .ok st ∧
      st.ci_low ≤ st.mean ∧ st.mean ≤ st.ci_high ∧
      st.mean - st.ci_low = F.ppf (1 - alpha / 2) * st.se ∧
      st.ci_high - st.mean = F.ppf (1 - alpha / 2) * st.se ∧
      st.se = st.sd / F.sqrt (st.n : ℚ) := by
  have hlt : ¬ xs.length < 2 := by omega
  have hz : 0 ≤ F.ppf (1 - alpha / 2) := hppf _ (by linarith)
  have hsd : 0 ≤ F.sqrt (listVar xs) := hsqrt _ (listVar_nonneg xs h2)
  have hse : 0 ≤ F.sqrt (listVar xs) / F.sqrt ((xs.length : ℚ)) :=
    div_nonneg hsd (hsqrt _ (by positivity))
  have hzse : 0 ≤ F.ppf (1 - alpha / 2) *
      (F.sqrt (listVar xs) / F.sqrt ((xs.length : ℚ))) := mul_nonneg hz hse
  refine ⟨⟨xs.length, listMean xs, F.sqrt (listVar xs),
    F.sqrt (listVar xs) / F.sqrt ((xs.length : ℚ)), alpha,
    listMean xs - F.ppf (1 - alpha / 2) *
      (F.sqrt (listVar xs) / F.sqrt ((xs.length : ℚ))),
    listMean xs + F.ppf (1 - alpha / 2) *
      (F.sqrt (listVar xs) / F.sqrt ((xs.length : ℚ)))⟩,
    by rw [mc_mean_ci, if_neg hlt], by linarith [hzse], by linarith [hzse],
    by ring, by ring, rfl⟩

/-- Witness for `mc_mean_ci_interval` (C9) on three samples at
`alpha = 1/20`. -/
theorem mc_mean_ci_interval_witness :
    2 ≤ [(1 : ℚ), 2, 4].length ∧ (0 : ℚ) < 1 / 20 ∧ (1 / 20 : ℚ) < 1 ∧
    (∃ st, mc_mean_ci trivialRealFuns [(1 : ℚ), 2, 4] (1 / 20) = .ok st ∧
      st.ci_low ≤ st.mean ∧ st.mean ≤ st.ci_high ∧
      st.mean - st.ci_low = trivialRealFuns.ppf (1 - (1 / 20) / 2) * st.se ∧
      st.ci_high - st.mean = trivialRealFuns.ppf (1 - (1 / 20) / 2) * st.se ∧
      st.se = st.sd / trivialRealFuns.sqrt (st.n : ℚ)) :=
  ⟨by norm_num, by norm_num, by norm_num,
   mc_mean_ci_interval trivialRealFuns [(1 : ℚ), 2, 4] (1 / 20) (by norm_num)
     (by norm_num) (by norm_num) (fun q _ => le_refl 0) (fun q _ => le_refl 0)⟩

/-! ### Success-path and error-classification helpers for the pricers -/

/-- The effective row count is at least the requested count. -/
theorem effCount_ge (n : ℕ) (b : Bool) : n ≤ effCount n b := by
  cases b
  · simp [effCount]
  · show n ≤ 2 * ((n + 1) / 2)
    omega

/-- The mean of a list of nonnegative values is nonnegative. -/
theorem listMean_nonneg (xs : List ℚ) (h : ∀ v ∈ xs, 0 ≤ v) : 0 ≤ listMean xs :=
  div_nonneg (List.sum_nonneg h) (Nat.cast_nonneg _)

/-- `mc_mean_ci` in equation form on at least two samples. -/
theorem mc_mean_ci_eq (F : RealFuns) (xs : List ℚ) (alpha : ℚ)
    (h2 : 2 ≤ xs.length) :
    mc_mean_ci F xs alpha = .ok ⟨xs.length, listMean xs, F.sqrt (listVar xs),
      F.sqrt (listVar xs) / F.sqrt ((xs.length : ℚ)), alpha,
      listMean xs - F.ppf (1 - alpha / 2) *
        (F.sqrt (listVar xs) / F.sqrt ((xs.length : ℚ))),
      listMean xs + F.ppf (1 - alpha / 2) *
        (F.sqrt (listVar xs) / F.sqrt ((xs.length : ℚ)))⟩ := by
  rw [mc_mean_ci, if_neg (by omega)]

/-- `mc_mean_ci` can only fail with `InsufficientSamples`. -/
theorem mc_mean_ci_err (F : RealFuns) (xs : List ℚ) (alpha : ℚ) (e : VRError)
    (h : mc_mean_ci F xs alpha = .error e) : e = .InsufficientSamples := by
  unfold mc_mean_ci at h
  split_ifs at h
  injection h with h'
  exact h'.symm

/-- `standard_normals` succeeds on positive counts and a recognized method. -/
theorem standard_normals_ok (P : PRNG) (F : RealFuns) (n d : ℕ)
    (cfg : MCNormalConfig) (amb : RngState) (hn : 0 < n) (hd : 0 < d)
    (hm : cfg.method = "plain" ∨ cfg.method = "lhs" ∨ cfg.method = "sobol" ∨
      cfg.method = "halton") :
    ∃ M, standard_normals P F n d cfg amb = .ok M := by
  have hn0 : ¬ n = 0 := by omega
  have hd0 : ¬ d = 0 := by omega
  have hb : ¬ nBase n cfg.antithetic = 0 := by
    cases cfg.antithetic <;> simp [nBase] <;> omega
  rcases hm with h | h | h | h
  · exact ⟨plainNormals P n d cfg amb, by simp [standard_normals, hn0, hd0, h]⟩
  · exact ⟨lhsNormals P F n d cfg amb, by simp [standard_normals, hn0, hd0, h, hb]⟩
  · exact ⟨qmcNormals P F n d cfg, by simp [standard_normals, hn0, hd0, h]⟩
  · exact ⟨qmcNormals P F n d cfg, by simp [standard_normals, hn0, hd0, h]⟩

/-- A failing `standard_normals` call with a recognized method can only
report `InvalidInput`. -/
theorem standard_normals_err (P : PRNG) (F : RealFuns) (n d : ℕ)
    (cfg : MCNormalConfig) (amb : RngState) (e : VRError)
    (hm : cfg.method = "plain" ∨ cfg.method = "lhs" ∨ cfg.method = "sobol" ∨
      cfg.method = "halton")
    (h : standard_normals P F n d cfg amb = .error e) : e = .InvalidInput := by
  unfold standard_normals at h
  split_ifs at h <;> simp_all

/-- A failing `correlated_normals` call with a recognized method reports
`InvalidInput` or a failed Cholesky factorization. -/
theorem correlated_normals_err (P : PRNG) (F : RealFuns) (n : ℕ) {d : ℕ}
    (corr : Matrix (Fin d) (Fin d) ℚ) (cfg : MCNormalConfig) (amb : RngState)
    (e : VRError)
    (hm : cfg.method = "plain" ∨ cfg.method = "lhs" ∨ cfg.method = "sobol" ∨
      cfg.method = "halton")
    (h : correlated_normals P F n corr cfg amb = .error e) :
    e = .InvalidInput ∨ e = .DecompositionFailure := by
  unfold correlated_normals at h
  cases hsn : standard_normals P F n d cfg amb with
  | error e' =>
    rw [hsn] at h
    simp only at h
    injection h with he
    subst he
    exact Or.inl (standard_normals_err P F n d cfg amb e' hm hsn)
  | ok Z =>
    rw [hsn] at h
    cases hch : F.cholFac d corr with
    | none =>
      rw [hch] at h
      simp only at h
      injection h with he
      exact Or.inr he.symm
    | some L =>
      rw [hch] at h
      exact absurd h (by simp)

/-- `correlated_normals` succeeds on positive counts, a recognized method
and a successful factorization. -/
theorem correlated_normals_ok (P : PRNG) (F : RealFuns) (n : ℕ) {d : ℕ}
    (corr : Matrix (Fin d) (Fin d) ℚ) (cfg : MCNormalConfig) (amb : RngState)
    (hn : 0 < n) (hd : 0 < d)
    (hm : cfg.method = "plain" ∨ cfg.method = "lhs" ∨ cfg.method = "sobol" ∨
      cfg.method = "halton")
    (L : Matrix (Fin d) (Fin d) ℚ) (hchol : F.cholFac d corr = some L) :
    ∃ Z, correlated_normals P F n corr cfg amb = .ok Z := by
  obtain ⟨M, hM⟩ := standard_normals_ok P F n d cfg amb hn hd hm
  exact ⟨Matrix.of fun i j => ∑ t, M i t * L j t,
    by unfold correlated_normals; rw [hM, hchol]⟩

/-! ### C10: baseline means are nonnegative -/

/-- Every per-path Asian payoff is a discount factor times a `max(·, 0)`. -/
theorem asianPayoff_nonneg (F : RealFuns) (S0 K r T sigma dt : ℚ)
    {m n_obs : ℕ} (Z : Matrix (Fin m) (Fin n_obs) ℚ) (i : Fin m)
    (hexp : ∀ q : ℚ, 0 ≤ F.exp q) : 0 ≤ asianPayoff F S0 K r T sigma dt Z i :=
  mul_nonneg (hexp _) (le_max_right _ _)

/-- C10: on valid inputs both pricers succeed, and the baseline mean each
returns is nonnegative, because every per-path discounted payoff is
`exp(-r T) * max(· - K, 0) ≥ 0` (the float `exp` kernel is nonnegative). -/
theorem pricers_baseline_mean_nonneg (P : PRNG) (F : RealFuns)
    (S0 K r T sigma : ℚ) (n_obs n_paths seed : ℕ) (anti ucv : Bool)
    (alpha : ℚ) (method : String) (qs uec : Bool)
    (S0l wl voll : List ℚ) (corr : List (List ℚ)) (K2 r2 T2 alpha2 : ℚ)
    (np2 seed2 : ℕ) (anti2 lhs2 ucv2 qs2 uec2 : Bool) (bmethod : String)
    (L : Matrix (Fin S0l.length) (Fin S0l.length) ℚ) (amb : RngState)
    (hexp : ∀ q : ℚ, 0 ≤ F.exp q)
    (hobs : 0 < n_obs) (hpaths : 1000 ≤ n_paths) (hT : 0 < T) (hsig : 0 < sigma)
    (hm : method = "plain" ∨ method = "lhs" ∨ method = "sobol" ∨
      method = "halton")
    (hm2 : (if lhs2 then "lhs" else bmethod) = "plain" ∨
      (if lhs2 then "lhs" else bmethod) = "lhs" ∨
      (if lhs2 then "lhs" else bmethod) = "sobol" ∨
      (if lhs2 then "lhs" else bmethod) = "halton")
    (hd2 : 0 < S0l.length)
    (hdim : wl.length = S0l.length ∧ voll.length = S0l.length ∧
      corr.length = S0l.length ∧ corr.all fun row => row.length = S0l.length)
    (hpaths2 : 1000 ≤ np2) (hT2 : 0 < T2)
    (hchol : F.cholFac S0l.length
      (Matrix.of fun a b => (corr.getD a []).getD b 0) = some L) :
    (∃ out, arithmetic_asian_call_mc P F S0 K r T sigma n_obs n_paths seed
        anti ucv alpha method qs uec amb = .ok out ∧ 0 ≤ out.baseline.mean) ∧
    (∃ out, basket_call_mc_vr P F S0l wl K2 r2 T2 voll corr np2 seed2 anti2
        lhs2 ucv2 alpha2 bmethod qs2 uec2 amb = .ok out ∧
      0 ≤ out.baseline.mean) := by
  constructor
  · -- Asian pricer
    have hobs0 : ¬ n_obs = 0 := by omega
    have hlen : ∀ g : Fin (effCount n_paths anti) → ℚ,
        2 ≤ (List.ofFn g).length := by
      intro g
      rw [List.length_ofFn]
      have := effCount_ge n_paths anti
      omega
    have hpos : ∀ Z : Matrix (Fin (effCount n_paths anti)) (Fin n_obs) ℚ,
        0 ≤ listMean (List.ofFn
          (asianPayoff F S0 K r T sigma (T / (n_obs : ℚ)) Z)) := by
      intro Z
      apply listMean_nonneg
      intro v hv
      obtain ⟨i, rfl⟩ := Set.mem_range.mp ((List.mem_ofFn _ _).mp hv)
      exact asianPayoff_nonneg F S0 K r T sigma _ Z i hexp
    simp only [arithmetic_asian_call_mc]
    rw [dif_neg hobs0, if_neg (by omega : ¬ n_paths < 1000),
      if_neg (not_le.mpr hT), if_neg (not_le.mpr hsig),
      if_neg (not_not_intro hm)]
    split
    · rename_i e heq
      exfalso
      obtain ⟨Z, hZ⟩ := standard_normals_ok P F n_paths n_obs
        ⟨method, anti, seed, qs, false⟩ amb (by omega) hobs hm
      rw [hZ] at heq
      cases heq
    · rename_i Z heq
      split
      · rename_i e heq2
        exfalso
        rw [mc_mean_ci_eq F _ alpha (hlen _)] at heq2
        cases heq2
      · rename_i st heq2
        rw [mc_mean_ci_eq F _ alpha (hlen _)] at heq2
        injection heq2 with hst
        subst hst
        cases ucv
        · rw [if_pos rfl]
          exact ⟨_, rfl, hpos Z⟩
        · rw [if_neg (by simp)]
          split
          · rename_i e heq3
            exfalso
            rw [mc_mean_ci_eq F _ alpha (hlen _)] at heq3
            cases heq3
          · rename_i st2 heq3
            exact ⟨_, rfl, hpos Z⟩
  · -- Basket pricer
    have hlen : ∀ g : Fin (effCount np2 anti2) → ℚ,
        2 ≤ (List.ofFn g).length := by
      intro g
      rw [List.length_ofFn]
      have := effCount_ge np2 anti2
      omega
    simp only [basket_call_mc_vr]
    rw [if_neg (not_not_intro hm2), if_neg (not_not_intro hdim),
      if_neg (by omega : ¬ np2 < 1000), if_neg (not_le.mpr hT2)]
    split
    · rename_i e heq
      exfalso
      obtain ⟨Z, hZ⟩ := correlated_normals_ok P F np2
        (Matrix.of fun a b => (corr.getD a []).getD b 0)
        ⟨if lhs2 then "lhs" else bmethod, anti2, seed2, qs2, false⟩ amb
        (by omega) hd2 hm2 L hchol
      rw [hZ] at heq
      cases heq
    · rename_i Z heq
      have hpos : 0 ≤ listMean (List.ofFn fun i =>
          F.exp (-(r2 * T2)) *
            max ((∑ j, (S0l.get j *
              F.exp ((r2 - voll.getD j 0 ^ 2 / 2) * T2 +
                voll.getD j 0 * F.sqrt T2 * Z i j)) * wl.getD j 0) - K2) 0) := by
        apply listMean_nonneg
        intro v hv
        obtain ⟨i, rfl⟩ := Set.mem_range.mp ((List.mem_ofFn _ _).mp hv)
        exact mul_nonneg (hexp _) (le_max_right _ _)
      split
      · rename_i e heq2
        exfalso
        rw [mc_mean_ci_eq F _ alpha2 (hlen _)] at heq2
        cases heq2
      · rename_i st heq2
        rw [mc_mean_ci_eq F _ alpha2 (hlen _)] at heq2
        injection heq2 with hst
        subst hst
        cases ucv2
        · rw [if_pos rfl]
          exact ⟨_, rfl, hpos⟩
        · rw [if_neg (by simp)]
          split
          · rename_i e heq3
            exfalso
            rw [mc_mean_ci_eq F _ alpha2 (hlen _)] at heq3
            cases heq3
          · rename_i st2 heq3
            exact ⟨_, rfl, hpos⟩

/-- Witness for `pricers_baseline_mean_nonneg` (C10) at concrete one-asset,
one-date parameters. -/
theorem pricers_baseline_mean_nonneg_witness :
    (∀ q : ℚ, 0 ≤ trivialRealFuns.exp q) ∧
    ((∃ out, arithmetic_asian_call_mc trivialPRNG trivialRealFuns 1 1 1 1 1 1
        1000 123 true true (1 / 20) "plain" true true ⟨0, 0⟩ = .ok out ∧
      0 ≤ out.baseline.mean) ∧
    (∃ out, basket_call_mc_vr trivialPRNG trivialRealFuns [1] [1] 1 1 1 [1]
        [[1]] 1000 321 true false true (1 / 20) "plain" true true ⟨0, 0⟩ =
        .ok out ∧
      0 ≤ out.baseline.mean)) :=
  ⟨fun q => le_refl 0,
   pricers_baseline_mean_nonneg trivialPRNG trivialRealFuns 1 1 1 1 1 1 1000
     123 true true (1 / 20) "plain" true true [1] [1] [1] [[1]] 1 1 1 (1 / 20)
     1000 321 true false true true true "plain" 1 ⟨0, 0⟩ (fun q => le_refl 0)
     (by norm_num) (by norm_num) (by norm_num) (by norm_num) (Or.inl rfl)
     (Or.inl (by decide)) (by decide) (by decide) (by norm_num) (by norm_num)
     rfl⟩

/-! ### C8: the legacy latin-hypercube boolean -/

/-- With the legacy flag set, the normalized method is `"lhs"` and the basket
pricer never reports `UnknownMethod`: every later failure is a dimension,
input, sample-count or decomposition error. -/
theorem basket_err_not_unknown (P : PRNG) (F : RealFuns) (S0l wl : List ℚ)
    (K r T : ℚ) (voll : List ℚ) (corr : List (List ℚ)) (np seed : ℕ)
    (anti ucv : Bool) (alpha : ℚ) (m : String) (qs uec : Bool)
    (amb : RngState) (e : VRError)
    (h : basket_call_mc_vr P F S0l wl K r T voll corr np seed anti true ucv
      alpha m qs uec amb = .error e) :
    e ≠ .UnknownMethod := by
  intro hEU
  subst hEU
  simp only [basket_call_mc_vr] at h
  simp only [eq_self_iff_true, if_true] at h
  rw [if_neg (not_not_intro (Or.inr (Or.inl trivial)))] at h
  split_ifs at h
  all_goals try exact (by assumption : ¬true = true) rfl
  all_goals try exact VRError.noConfusion (Except.error.inj h)
  split at h
  · rename_i e' heq
    have he : e' = .UnknownMethod := Except.error.inj h
    subst he
    rcases correlated_normals_err P F np _ _ amb _ (Or.inr (Or.inl rfl)) heq
      with h' | h' <;> exact VRError.noConfusion h'
  · rename_i Z heq
    split at h
    · rename_i e' heq2
      have he : e' = .UnknownMethod := Except.error.inj h
      subst he
      exact VRError.noConfusion (mc_mean_ci_err F _ alpha _ heq2)
    · rename_i st heq2
      split at h
      · exact Except.noConfusion h
      · split at h
        · rename_i e' heq3
          have he : e' = .UnknownMethod := Except.error.inj h
          subst he
          exact VRError.noConfusion (mc_mean_ci_err F _ alpha _ heq3)
        · exact Except.noConfusion h

/-- C8: calling the basket pricer with the legacy boolean `lhs = true` is
identical to calling it with `lhs = false` and `method = "lhs"`, whatever
method string is passed alongside the flag; the normalization happens
before method validation, so `lhs = true` never yields `UnknownMethod`. -/
theorem basket_legacy_lhs_normalization (P : PRNG) (F : RealFuns)
    (S0l wl : List ℚ) (K r T : ℚ) (voll : List ℚ) (corr : List (List ℚ))
    (np seed : ℕ) (anti ucv : Bool) (alpha : ℚ) (m : String) (qs uec : Bool)
    (amb : RngState) :
    basket_call_mc_vr P F S0l wl K r T voll corr np seed anti true ucv alpha m
        qs uec amb =
      basket_call_mc_vr P F S0l wl K r T voll corr np seed anti false ucv
        alpha "lhs" qs uec amb ∧
    basket_call_mc_vr P F S0l wl K r T voll corr np seed anti true ucv alpha m
        qs uec amb ≠ .error .UnknownMethod := by
  constructor
  · rfl
  · intro h
    exact basket_err_not_unknown P F S0l wl K r T voll corr np seed anti
      ucv alpha m qs uec amb .UnknownMethod h rfl
